import Mathlib

/-!
Verification of the minimum-vertex-cover benchmark driver (`driver.py`).

The repository's visible code is the orchestration driver: the subgraph
selection for the branch-and-bound run, the post-solve filtering loop, the
memory-probe helper and the report step.  The two solver engines
(`vertex_cover.vc_dp.DynamicProgramming` and
`vertex_cover.vc_bnb.BranchAndBound`) are imported by the driver but their
modules are not part of the tree; they are modelled here from the design
document (§4.1 and §4.2), marked `Modelled from the spec:` on each such
definition.

Machine conventions: vertex ids are `Nat`; graphs are edge lists
`List (Nat × Nat)`; covers are lists of vertex ids (cardinality = length,
with no-duplication facts proved where cardinality matters); wall-clock
time is modelled as a count of search-node expansions (the spec's polling
model, §5, with a polling interval of one expansion).
-/

/-- Modelled from the spec (§3 Tree, missing module `utils.dataset`):
a rooted tree is a root vertex id together with the list of its child
subtrees.  Connectivity, acyclicity and the `N-1`-edge count of §3 are
intrinsic to this inductive; the remaining §3 invariant ("every vertex
reachable from the root exactly once") is `ValidTree` below. -/
inductive RTree : Type where
  | node : Nat → List RTree → RTree

/-- The root vertex id of a rooted tree. -/
def rootOf : RTree → Nat
  | .node v _ => v

mutual

/-- Vertex list of a rooted tree, root first, then the subtrees in order. -/
def verts : RTree → List Nat
  | .node v cs => v :: vertsList cs

/-- Vertex lists of a forest, concatenated. -/
def vertsList : List RTree → List Nat
  | [] => []
  | t :: ts => verts t ++ vertsList ts

end

mutual

/-- Edge list of a rooted tree: each parent-child pair, parent first. -/
def edges : RTree → List (Nat × Nat)
  | .node v cs => childEdges v cs

/-- Edges from a parent `v` into a forest of child subtrees. -/
def childEdges : Nat → List RTree → List (Nat × Nat)
  | _, [] => []
  | v, t :: ts => (v, rootOf t) :: (edges t ++ childEdges v ts)

end

/-- The §3 invariant: every vertex occurs exactly once in the tree. -/
def ValidTree (t : RTree) : Prop := (verts t).Nodup

instance : DecidablePred ValidTree := fun t =>
  inferInstanceAs (Decidable ((verts t).Nodup))

mutual

/-- Modelled from the spec (§4.1 step 2, missing module `vertex_cover.vc_dp`):
`cost_included(v) = 1 + Σ min(cost_included(c), cost_excluded(c))` over
children `c`. -/
def costInc : RTree → Nat
  | .node _ cs => 1 + sumMinCost cs

/-- Modelled from the spec (§4.1 step 2, missing module `vertex_cover.vc_dp`):
`cost_excluded(v) = Σ cost_included(c)` over children `c`. -/
def costExc : RTree → Nat
  | .node _ cs => sumIncCost cs

/-- Sum over a forest of each tree's cheaper of the two DP costs. -/
def sumMinCost : List RTree → Nat
  | [] => 0
  | t :: ts => min (costInc t) (costExc t) + sumMinCost ts

/-- Sum over a forest of each tree's `cost_included`. -/
def sumIncCost : List RTree → Nat
  | [] => 0
  | t :: ts => costInc t + sumIncCost ts

end

mutual

/-- Modelled from the spec (§4.1 step 4, missing module `vertex_cover.vc_dp`):
top-down reconstruction.  The `Bool` is the vertex's resolved state
(`true` = included).  An included vertex lets each child take its own
local minimum (tie-break preferring included); an excluded vertex forces
every child into the cover. -/
def reconstruct : RTree → Bool → List Nat
  | .node v cs, true => v :: recFree cs
  | .node _ cs, false => recForced cs

/-- Children of an included parent: each picks its local optimum, preferring
`included` on ties (spec §4.1 steps 3-4). -/
def recFree : List RTree → List Nat
  | [] => []
  | t :: ts => reconstruct t (decide (costInc t ≤ costExc t)) ++ recFree ts

/-- Children of an excluded parent: all forced into the cover. -/
def recForced : List RTree → List Nat
  | [] => []
  | t :: ts => reconstruct t true ++ recForced ts

end

/-- Modelled from the spec (§4.1, missing module `vertex_cover.vc_dp`):
the DP solver's returned cover — reconstruct from the root's winning
choice, preferring `cost_included` on ties. -/
def dpSolve (t : RTree) : List Nat :=
  reconstruct t (decide (costInc t ≤ costExc t))

/-- Predicate: `C` is a vertex cover for the edge list `es` (§3 Cover). -/
def coversEdges (C : List Nat) (es : List (Nat × Nat)) : Prop :=
  ∀ e ∈ es, e.1 ∈ C ∨ e.2 ∈ C

instance (C : List Nat) (es : List (Nat × Nat)) :
    Decidable (coversEdges C es) :=
  inferInstanceAs (Decidable (∀ e ∈ es, e.1 ∈ C ∨ e.2 ∈ C))

/-- Number of vertices of the list `l` that lie in the cover `C`,
counted with `l`'s multiplicity. -/
def countIn (C : List Nat) (l : List Nat) : Nat :=
  (l.filter (fun v => decide (v ∈ C))).length

theorem countIn_nil (C : List Nat) : countIn C [] = 0 := rfl

theorem countIn_cons (C : List Nat) (v : Nat) (l : List Nat) :
    countIn C (v :: l) = (if v ∈ C then 1 else 0) + countIn C l := by
  by_cases h : v ∈ C <;> simp [countIn, List.filter_cons, h, Nat.add_comm]

theorem countIn_append (C : List Nat) (l₁ l₂ : List Nat) :
    countIn C (l₁ ++ l₂) = countIn C l₁ + countIn C l₂ := by
  simp [countIn, List.filter_append]

theorem countIn_le_length (C l : List Nat) (h : l.Nodup) :
    countIn C l ≤ C.length := by
  have hsub : (l.filter fun v => decide (v ∈ C)) ⊆ C := fun x hx =>
    of_decide_eq_true (List.mem_filter.mp hx).2
  have hnd : (l.filter fun v => decide (v ∈ C)).Nodup := h.filter _
  exact (List.subperm_of_subset hnd hsub).length_le

mutual

theorem reconstruct_length : ∀ t : RTree,
    (reconstruct t true).length = costInc t ∧
    (reconstruct t false).length = costExc t
  | .node v cs => by
    refine ⟨?_, recForced_length cs⟩
    show (v :: recFree cs).length = 1 + sumMinCost cs
    rw [List.length_cons, recFree_length cs, Nat.add_comm]

theorem recFree_length : ∀ ts : List RTree,
    (recFree ts).length = sumMinCost ts
  | [] => rfl
  | t :: ts => by
    show (reconstruct t (decide (costInc t ≤ costExc t)) ++ recFree ts).length
        = min (costInc t) (costExc t) + sumMinCost ts
    rw [List.length_append, recFree_length ts]
    by_cases h : costInc t ≤ costExc t
    · rw [decide_eq_true h, (reconstruct_length t).1, Nat.min_eq_left h]
    · rw [decide_eq_false h, (reconstruct_length t).2,
        Nat.min_eq_right (Nat.le_of_not_le h)]

theorem recForced_length : ∀ ts : List RTree,
    (recForced ts).length = sumIncCost ts
  | [] => rfl
  | t :: ts => by
    show (reconstruct t true ++ recForced ts).length = costInc t + sumIncCost ts
    rw [List.length_append, recForced_length ts, (reconstruct_length t).1]

end

theorem root_mem_reconstruct : ∀ t : RTree, rootOf t ∈ reconstruct t true
  | .node v cs => List.mem_cons_self v (recFree cs)

mutual

theorem reconstruct_covers : ∀ (t : RTree) (b : Bool),
    ∀ e ∈ edges t, e.1 ∈ reconstruct t b ∨ e.2 ∈ reconstruct t b
  | .node v cs, true => fun e he => covFree v cs e he
  | .node v cs, false => fun e he => covForced v cs e he

theorem covFree : ∀ (v : Nat) (cs : List RTree),
    ∀ e ∈ childEdges v cs,
      e.1 ∈ (v :: recFree cs) ∨ e.2 ∈ (v :: recFree cs)
  | v, [], e, he => absurd he (by simp [childEdges])
  | v, t :: ts, e, he => by
    simp only [childEdges, List.mem_cons, List.mem_append] at he
    rcases he with rfl | he | he
    · exact Or.inl (List.mem_cons_self _ _)
    · rcases reconstruct_covers t (decide (costInc t ≤ costExc t)) e he with h | h
      · exact Or.inl (List.mem_cons_of_mem v (by
          show _ ∈ reconstruct t _ ++ recFree ts
          exact List.mem_append_left _ h))
      · exact Or.inr (List.mem_cons_of_mem v (by
          show _ ∈ reconstruct t _ ++ recFree ts
          exact List.mem_append_left _ h))
    · rcases covFree v ts e he with h | h
      · rcases List.mem_cons.mp h with rfl | h
        · exact Or.inl (List.mem_cons_self _ _)
        · exact Or.inl (List.mem_cons_of_mem v (by
            show _ ∈ reconstruct t _ ++ recFree ts
            exact List.mem_append_right _ h))
      · rcases List.mem_cons.mp h with heq | h
        · exact Or.inr (heq ▸ List.mem_cons_self _ _)
        · exact Or.inr (List.mem_cons_of_mem v (by
            show _ ∈ reconstruct t _ ++ recFree ts
            exact List.mem_append_right _ h))

theorem covForced : ∀ (v : Nat) (cs : List RTree),
    ∀ e ∈ childEdges v cs, e.1 ∈ recForced cs ∨ e.2 ∈ recForced cs
  | v, [], e, he => absurd he (by simp [childEdges])
  | v, t :: ts, e, he => by
    simp only [childEdges, List.mem_cons, List.mem_append] at he
    rcases he with rfl | he | he
    · refine Or.inr ?_
      show rootOf t ∈ recForced (t :: ts)
      show rootOf t ∈ reconstruct t true ++ recForced ts
      exact List.mem_append_left _ (root_mem_reconstruct t)
    · rcases reconstruct_covers t true e he with h | h
      · exact Or.inl (by
          show _ ∈ reconstruct t true ++ recForced ts
          exact List.mem_append_left _ h)
      · exact Or.inr (by
          show _ ∈ reconstruct t true ++ recForced ts
          exact List.mem_append_left _ h)
    · rcases covForced v ts e he with h | h
      · exact Or.inl (by
          show _ ∈ reconstruct t true ++ recForced ts
          exact List.mem_append_right _ h)
      · exact Or.inr (by
          show _ ∈ reconstruct t true ++ recForced ts
          exact List.mem_append_right _ h)

end

mutual

theorem reconstruct_sublist : ∀ (t : RTree) (b : Bool),
    (reconstruct t b).Sublist (verts t)
  | .node v cs, true => by
    show (v :: recFree cs).Sublist (v :: vertsList cs)
    exact (recFree_sublist cs).cons₂ v
  | .node v cs, false => by
    show (recForced cs).Sublist (v :: vertsList cs)
    exact (recForced_sublist cs).cons v

theorem recFree_sublist : ∀ ts : List RTree,
    (recFree ts).Sublist (vertsList ts)
  | [] => List.Sublist.slnil
  | t :: ts => by
    show (reconstruct t _ ++ recFree ts).Sublist (verts t ++ vertsList ts)
    exact (reconstruct_sublist t _).append (recFree_sublist ts)

theorem recForced_sublist : ∀ ts : List RTree,
    (recForced ts).Sublist (vertsList ts)
  | [] => List.Sublist.slnil
  | t :: ts => by
    show (reconstruct t true ++ recForced ts).Sublist (verts t ++ vertsList ts)
    exact (reconstruct_sublist t true).append (recForced_sublist ts)

end

mutual

theorem dp_lower : ∀ (t : RTree) (C : List Nat),
    (∀ e ∈ edges t, e.1 ∈ C ∨ e.2 ∈ C) →
    (rootOf t ∈ C → costInc t ≤ countIn C (verts t)) ∧
    (rootOf t ∉ C → costExc t ≤ countIn C (verts t))
  | .node v cs, C, hcov => by
    have hl := dp_lower_list v cs C hcov
    constructor
    · intro hv
      show 1 + sumMinCost cs ≤ countIn C (v :: vertsList cs)
      rw [countIn_cons]
      simp only [rootOf] at hv
      rw [if_pos hv]
      exact Nat.add_le_add_left hl.1 1
    · intro hv
      show sumIncCost cs ≤ countIn C (v :: vertsList cs)
      rw [countIn_cons]
      exact Nat.le_add_left _ _ |>.trans' (hl.2 hv)

theorem dp_lower_list : ∀ (v : Nat) (cs : List RTree) (C : List Nat),
    (∀ e ∈ childEdges v cs, e.1 ∈ C ∨ e.2 ∈ C) →
    (sumMinCost cs ≤ countIn C (vertsList cs)) ∧
    (v ∉ C → sumIncCost cs ≤ countIn C (vertsList cs))
  | v, [], C, _ => by simp [sumMinCost, sumIncCost, vertsList, countIn]
  | v, t :: ts, C, hcov => by
    have hct : ∀ e ∈ edges t, e.1 ∈ C ∨ e.2 ∈ C := fun e he =>
      hcov e (by
        simp only [childEdges, List.mem_cons, List.mem_append]
        exact Or.inr (Or.inl he))
    have hcts : ∀ e ∈ childEdges v ts, e.1 ∈ C ∨ e.2 ∈ C := fun e he =>
      hcov e (by
        simp only [childEdges, List.mem_cons, List.mem_append]
        exact Or.inr (Or.inr he))
    have ht := dp_lower t C hct
    have hts := dp_lower_list v ts C hcts
    have hedge : v ∈ C ∨ rootOf t ∈ C :=
      hcov (v, rootOf t) (by simp [childEdges])
    have hCapp : countIn C (vertsList (t :: ts))
        = countIn C (verts t) + countIn C (vertsList ts) := by
      show countIn C (verts t ++ vertsList ts) = _
      exact countIn_append C (verts t) (vertsList ts)
    constructor
    · have hmin : min (costInc t) (costExc t) ≤ countIn C (verts t) := by
        by_cases h : rootOf t ∈ C
        · exact le_trans (Nat.min_le_left _ _) (ht.1 h)
        · exact le_trans (Nat.min_le_right _ _) (ht.2 h)
      rw [hCapp]
      show min (costInc t) (costExc t) + sumMinCost ts ≤ _
      exact Nat.add_le_add hmin hts.1
    · intro hv
      have hroot : rootOf t ∈ C := by
        rcases hedge with h | h
        · exact absurd h hv
        · exact h
      rw [hCapp]
      show costInc t + sumIncCost ts ≤ _
      exact Nat.add_le_add (ht.1 hroot) (hts.2 hv)

end

theorem dpSolve_length (t : RTree) :
    (dpSolve t).length = min (costInc t) (costExc t) := by
  unfold dpSolve
  by_cases h : costInc t ≤ costExc t
  · rw [decide_eq_true h, (reconstruct_length t).1, Nat.min_eq_left h]
  · rw [decide_eq_false h, (reconstruct_length t).2,
      Nat.min_eq_right (Nat.le_of_not_le h)]

theorem dpSolve_covers (t : RTree) : coversEdges (dpSolve t) (edges t) :=
  reconstruct_covers t _

theorem dpSolve_min (t : RTree) (C : List Nat) (hv : ValidTree t)
    (hC : coversEdges C (edges t)) : (dpSolve t).length ≤ C.length := by
  rw [dpSolve_length]
  have h := dp_lower t C hC
  have hm : min (costInc t) (costExc t) ≤ countIn C (verts t) := by
    by_cases hr : rootOf t ∈ C
    · exact le_trans (Nat.min_le_left _ _) (h.1 hr)
    · exact le_trans (Nat.min_le_right _ _) (h.2 hr)
  exact le_trans hm (countIn_le_length C (verts t) hv)

/-- The §8 scenario star tree: center `1` with leaves `2,3,4,5`. -/
def starTree : RTree :=
  .node 1 [.node 2 [], .node 3 [], .node 4 [], .node 5 []]

/-- A two-vertex path `1-2`, rooted at `1`; at its root
`cost_included = cost_excluded = 1`, so it exercises the tie-break. -/
def path2 : RTree := .node 1 [.node 2 []]

/-- C1: for every valid rooted tree (per the §3 invariants), the DP solve
operation returns a set that is a vertex cover of the full tree (every edge
has at least one endpoint in it), and no vertex cover of the tree has
strictly smaller cardinality. -/
theorem dp_solve_returns_minimum_vertex_cover (t : RTree) (C : List Nat)
    (hv : ValidTree t) (hC : coversEdges C (edges t)) :
    coversEdges (dpSolve t) (edges t) ∧ (dpSolve t).length ≤ C.length :=
  ⟨dpSolve_covers t, dpSolve_min t C hv hC⟩

/-- Witness for C1 at the star tree against the all-vertices cover. -/
theorem dp_solve_returns_minimum_vertex_cover_witness :
    ValidTree starTree ∧ coversEdges [1, 2, 3, 4, 5] (edges starTree) ∧
      (coversEdges (dpSolve starTree) (edges starTree) ∧
        (dpSolve starTree).length ≤ ([1, 2, 3, 4, 5] : List Nat).length) :=
  ⟨by decide, by decide,
    dp_solve_returns_minimum_vertex_cover starTree [1, 2, 3, 4, 5]
      (by decide) (by decide)⟩

/-- C6: the DP solver's optimal cover size equals
`min(cost_included(root), cost_excluded(root))`, and on a tie the solver
deterministically takes the `cost_included` branch — `reconstruct · true`,
whose definition applies the same included-on-tie rule at every vertex of
the top-down reconstruction. -/
theorem dp_root_min_and_tie_break (t : RTree) :
    (dpSolve t).length = min (costInc t) (costExc t) ∧
      (costInc t = costExc t → dpSolve t = reconstruct t true) := by
  refine ⟨dpSolve_length t, fun h => ?_⟩
  unfold dpSolve
  rw [decide_eq_true (Nat.le_of_eq h)]

/-- Witness for C6 at the path `1-2`, where the two root costs tie at `1`. -/
theorem dp_root_min_and_tie_break_witness :
    (dpSolve path2).length = min (costInc path2) (costExc path2) ∧
      (costInc path2 = costExc path2 → dpSolve path2 = reconstruct path2 true) :=
  dp_root_min_and_tie_break path2

/-- C8: on the star tree with center `1` and leaves `2,3,4,5`, the DP solve
operation returns exactly the cover `{1}`, of size `1`. -/
theorem dp_star_tree_cover :
    dpSolve starTree = [1] ∧ (dpSolve starTree).length = 1 := by
  constructor <;> decide

/-- A memory-probe reading as it lands in solver results: either a value in
MB or the explicit "unavailable" sentinel (§7). -/
inductive MemReading : Type where
  | available : Nat → MemReading
  | unavailable : MemReading
deriving Repr, DecidableEq

/-- The driver's probe `process_memory` (driver.py lines 15-22): converts a
resident-set-size reading in bytes to MB.  The probe itself is external
(psutil); its possible failure is modelled by the `Option`. -/
def process_memory (rss : Option Nat) : Option Nat :=
  rss.map (fun r => r / 1024 ^ 2)

/-- Modelled from the spec (§7 Memory probe failure, missing solver modules):
a probe failure is never propagated; it becomes the explicit sentinel. -/
def readMemory (probe : Option Nat) : MemReading :=
  match process_memory probe with
  | some m => .available m
  | none => .unavailable

/-- Result record of the DP solver's `solve` (§4.1 contract). -/
structure DPResult : Type where
  cover : List Nat
  memory : MemReading
deriving Repr, DecidableEq

/-- Modelled from the spec (§4.1, missing module `vertex_cover.vc_dp`):
the full DP solve contract — the cover plus the best-effort probe reading
taken after the solve. -/
def dpSolveFull (t : RTree) (probe : Option Nat) : DPResult :=
  { cover := dpSolve t, memory := readMemory probe }

/-- Mutable state threaded through the branch-and-bound search: the best
complete cover found so far, the solution timeline, the number of node
expansions performed (the wall-clock model of §5), and whether the
deadline fired. -/
structure BnBState : Type where
  best : Option (List Nat)
  timeline : List (List Nat × Nat)
  ticks : Nat
  cutoff : Bool
deriving Repr, DecidableEq

/-- Deadline poll (§4.2 step 4): with a budget of `b` node expansions the
deadline has elapsed once `b ≤ ticks`; `none` means no deadline. -/
def deadlineHit (budget : Option Nat) (ticks : Nat) : Bool :=
  match budget with
  | some b => decide (b ≤ ticks)
  | none => false

/-- Spec §4.2 step 1: a complete candidate improves on the best so far iff
it is strictly smaller (or no cover has been recorded yet). -/
def improves (pc : List Nat) (best : Option (List Nat)) : Bool :=
  match best with
  | none => true
  | some b => decide (pc.length < b.length)

/-- Spec §4.2 step 3 with the sound lower bound `1` on a nonempty uncovered
set (§9 leaves the bound open; any non-overestimating bound satisfies the
contract): prune iff `currentSize + 1 ≥ bestSize`. -/
def boundPrunes (pc : List Nat) (best : Option (List Nat)) : Bool :=
  match best with
  | none => false
  | some b => decide (b.length ≤ pc.length + 1)

/-- Remove from an uncovered-edge list every edge incident to `v`
(§4.2 step 2). -/
def removeIncident (v : Nat) (es : List (Nat × Nat)) : List (Nat × Nat) :=
  es.filter (fun e => !(e.1 == v || e.2 == v))

/-- Modelled from the spec (§4.2, missing module `vertex_cover.vc_bnb`):
the recursive branch-and-bound search.  Each call is one node expansion:
poll the deadline, then either record a complete candidate, prune, or
branch on the two endpoints of the first uncovered edge, restoring state
between branches (state restoration is implicit in the functional style —
each branch receives its own partial cover).  `fuel` is a structural bound
on recursion depth; every recursive call strictly shrinks the uncovered
list, so any `fuel > uncovered.length` is never exhausted. -/
def bnbGo (budget : Option Nat) : Nat → List (Nat × Nat) → List Nat →
    BnBState → BnBState
  | 0, _, _, st => st
  | fuel + 1, uncovered, pc, st =>
    if st.cutoff then st
    else if deadlineHit budget st.ticks then { st with cutoff := true }
    else
      match uncovered with
      | [] =>
        if improves pc st.best then
          { st with best := some pc,
                    timeline := st.timeline ++ [(pc, st.ticks)],
                    ticks := st.ticks + 1 }
        else { st with ticks := st.ticks + 1 }
      | (u, w) :: rest =>
        if boundPrunes pc st.best then { st with ticks := st.ticks + 1 }
        else
          bnbGo budget fuel (removeIncident w ((u, w) :: rest)) (w :: pc)
            (bnbGo budget fuel (removeIncident u ((u, w) :: rest)) (u :: pc)
              { st with ticks := st.ticks + 1 })

/-- The search's initial state: no best cover, empty timeline, clock at
zero, deadline not fired. -/
def initState : BnBState :=
  { best := none, timeline := [], ticks := 0, cutoff := false }

/-- Result record of the B&B solver's `solve` (§4.2 contract). -/
structure BnBResult : Type where
  cover : List Nat
  timeline : List (List Nat × Nat)
  cutoffReached : Bool
  memory : MemReading
deriving Repr, DecidableEq

/-- Modelled from the spec (§4.2, missing module `vertex_cover.vc_bnb`):
`solve(subgraph, cutoffSeconds)`.  The deadline is `budget` node
expansions; an empty best cover is returned when the search found none
before cutoff (the explicit degraded outcome of §4.2 step 4). -/
def bnbSolve (es : List (Nat × Nat)) (budget : Nat) (probe : Option Nat) :
    BnBResult :=
  let st := bnbGo (some budget) (es.length + 1) es [] initState
  { cover := st.best.getD [],
    timeline := st.timeline,
    cutoffReached := st.cutoff,
    memory := readMemory probe }

/-- The same search with no deadline: the full exploration of the branch
space.  Its final `ticks` is the total number of node expansions the
search needs. -/
def fullSearch (es : List (Nat × Nat)) : BnBState :=
  bnbGo none (es.length + 1) es [] initState

/-- The best-so-far holder contains a cover of length at most `n`. -/
def bestLe (o : Option (List Nat)) (n : Nat) : Prop :=
  ∃ b, o = some b ∧ b.length ≤ n

theorem removeIncident_length_le (v : Nat) (es : List (Nat × Nat)) :
    (removeIncident v es).length ≤ es.length :=
  List.length_filter_le _ _

theorem removeIncident_cons_left (u w : Nat) (rest : List (Nat × Nat)) :
    removeIncident u ((u, w) :: rest) = removeIncident u rest := by
  simp [removeIncident, List.filter_cons]

theorem removeIncident_cons_right (u w : Nat) (rest : List (Nat × Nat)) :
    removeIncident w ((u, w) :: rest) = removeIncident w rest := by
  simp [removeIncident, List.filter_cons]

theorem mem_removeIncident (v : Nat) (es : List (Nat × Nat))
    (e : Nat × Nat) :
    e ∈ removeIncident v es ↔ e ∈ es ∧ e.1 ≠ v ∧ e.2 ≠ v := by
  simp [removeIncident, List.mem_filter, not_or]

theorem bnbGo_cutoff_id (budget : Option Nat) (fuel : Nat)
    (u : List (Nat × Nat)) (pc : List Nat) (st : BnBState)
    (h : st.cutoff = true) : bnbGo budget fuel u pc st = st := by
  cases fuel with
  | zero => rfl
  | succ n => simp [bnbGo, h]

theorem bnbGo_cutoff_mono (budget : Option Nat) (fuel : Nat)
    (u : List (Nat × Nat)) (pc : List Nat) (st : BnBState)
    (h : (bnbGo budget fuel u pc st).cutoff = false) : st.cutoff = false := by
  by_cases hc : st.cutoff = true
  · rw [bnbGo_cutoff_id budget fuel u pc st hc] at h
    rw [h] at hc
    exact absurd hc (by simp)
  · exact Bool.not_eq_true _ |>.mp hc

theorem bnbGo_ticks_le (budget : Option Nat) (fuel : Nat) :
    ∀ (u : List (Nat × Nat)) (pc : List Nat) (st : BnBState),
      st.ticks ≤ (bnbGo budget fuel u pc st).ticks := by
  induction fuel with
  | zero => intro u pc st; exact Nat.le_refl _
  | succ n ih =>
    intro u pc st
    simp only [bnbGo]
    cases hcut : st.cutoff
    · cases hd : deadlineHit budget st.ticks
      · simp only [Bool.false_eq_true, if_false]
        cases u with
        | nil =>
          cases himp : improves pc st.best <;> simp [himp, Nat.le_succ]
        | cons e rest =>
          cases e with
          | mk uu ww =>
            cases hpr : boundPrunes pc st.best
            · simp only [Bool.false_eq_true, if_false]
              refine le_trans ?_ (ih _ _ _)
              exact le_trans (Nat.le_succ st.ticks)
                (ih (removeIncident uu ((uu, ww) :: rest)) (uu :: pc)
                  ⟨st.best, st.timeline, st.ticks + 1, false⟩)
            · simp [hpr, Nat.le_succ]
      · simp [hd]
    · simp [hcut]

theorem bnbGo_none_cutoff (fuel : Nat) :
    ∀ (u : List (Nat × Nat)) (pc : List Nat) (st : BnBState),
      st.cutoff = false → (bnbGo none fuel u pc st).cutoff = false := by
  induction fuel with
  | zero => intro u pc st h; exact h
  | succ n ih =>
    intro u pc st h
    simp only [bnbGo, h, deadlineHit]
    cases u with
    | nil => cases himp : improves pc st.best <;> simp [himp, h]
    | cons e rest =>
      cases e with
      | mk uu ww =>
        cases hpr : boundPrunes pc st.best
        · simp only [Bool.false_eq_true, if_false]
          exact ih _ _ _ (ih _ _ _ (by simp [h]))
        · simp [hpr, h]

theorem bnbGo_timeline_extend (budget : Option Nat) (fuel : Nat) :
    ∀ (u : List (Nat × Nat)) (pc : List Nat) (st : BnBState),
      st.timeline <+: (bnbGo budget fuel u pc st).timeline := by
  induction fuel with
  | zero => intro u pc st; exact List.prefix_rfl
  | succ n ih =>
    intro u pc st
    simp only [bnbGo]
    cases hcut : st.cutoff
    · cases hd : deadlineHit budget st.ticks
      · simp only [Bool.false_eq_true, if_false]
        cases u with
        | nil =>
          cases himp : improves pc st.best <;>
            simp [himp, List.prefix_append, List.prefix_rfl]
        | cons e rest =>
          cases e with
          | mk uu ww =>
            cases hpr : boundPrunes pc st.best
            · simp only [Bool.false_eq_true, if_false]
              refine List.IsPrefix.trans ?_ (ih _ _ _)
              exact ih (removeIncident uu ((uu, ww) :: rest)) (uu :: pc)
                ⟨st.best, st.timeline, st.ticks + 1, false⟩
            · simp [hpr, List.prefix_rfl]
      · simp [hd, List.prefix_rfl]
    · simp [hcut, List.prefix_rfl]

theorem bnbGo_bestLe_mono (budget : Option Nat) (fuel : Nat) :
    ∀ (u : List (Nat × Nat)) (pc : List Nat) (st : BnBState) (nb : Nat),
      bestLe st.best nb → bestLe (bnbGo budget fuel u pc st).best nb := by
  induction fuel with
  | zero => intro u pc st nb h; exact h
  | succ n ih =>
    intro u pc st nb h
    simp only [bnbGo]
    cases hcut : st.cutoff
    · cases hd : deadlineHit budget st.ticks
      · simp only [Bool.false_eq_true, if_false]
        cases u with
        | nil =>
          cases himp : improves pc st.best
          · simpa [himp] using h
          · obtain ⟨b, hb, hlen⟩ := h
            rw [hb] at himp
            simp only [improves, decide_eq_true_eq] at himp
            exact ⟨pc, by simp [himp], le_trans (Nat.le_of_lt himp) hlen⟩
        | cons e rest =>
          cases e with
          | mk uu ww =>
            cases hpr : boundPrunes pc st.best
            · simp only [Bool.false_eq_true, if_false]
              exact ih _ _ _ _ (ih _ _ _ _ h)
            · simpa [hpr] using h
      · simpa [hd] using h
    · simpa [hcut] using h

theorem bnbGo_sound (E : List (Nat × Nat)) (budget : Option Nat) (fuel : Nat) :
    ∀ (u : List (Nat × Nat)) (pc : List Nat) (st : BnBState),
      (∀ e ∈ E, e ∈ u ∨ (e.1 ∈ pc ∨ e.2 ∈ pc)) →
      (∀ b, st.best = some b → coversEdges b E) →
      (∀ en ∈ st.timeline, coversEdges en.1 E) →
      (∀ b, (bnbGo budget fuel u pc st).best = some b → coversEdges b E) ∧
      (∀ en ∈ (bnbGo budget fuel u pc st).timeline, coversEdges en.1 E) := by
  induction fuel with
  | zero => intro u pc st _ hb ht; exact ⟨hb, ht⟩
  | succ n ih =>
    intro u pc st hrel hb ht
    simp only [bnbGo]
    cases hcut : st.cutoff
    · cases hd : deadlineHit budget st.ticks
      · simp only [Bool.false_eq_true, if_false]
        cases u with
        | nil =>
          have hpc : coversEdges pc E := fun e he => by
            rcases hrel e he with h | h
            · exact absurd h (List.not_mem_nil e)
            · exact h
          cases himp : improves pc st.best
          · simp only [Bool.false_eq_true, if_false]
            exact ⟨hb, ht⟩
          · simp only [if_true]
            constructor
            · intro b hbeq
              have : pc = b := by
                simpa using hbeq
              exact this ▸ hpc
            · intro en hen
              rcases List.mem_append.mp hen with h | h
              · exact ht en h
              · have : en = (pc, st.ticks) := by simpa using h
                rw [this]
                exact hpc
        | cons e rest =>
          cases e with
          | mk uu ww =>
            cases hpr : boundPrunes pc st.best
            · simp only [Bool.false_eq_true, if_false]
              have hrel1 : ∀ e ∈ E,
                  e ∈ removeIncident uu ((uu, ww) :: rest) ∨
                    (e.1 ∈ uu :: pc ∨ e.2 ∈ uu :: pc) := by
                intro e he
                rcases hrel e he with h | h
                · by_cases hinc : e.1 = uu ∨ e.2 = uu
                  · rcases hinc with h1 | h2
                    · exact Or.inr (Or.inl (h1 ▸ List.mem_cons_self _ _))
                    · exact Or.inr (Or.inr (h2 ▸ List.mem_cons_self _ _))
                  · push_neg at hinc
                    exact Or.inl ((mem_removeIncident uu _ e).mpr
                      ⟨h, hinc.1, hinc.2⟩)
                · exact Or.inr (Or.elim h
                    (fun h1 => Or.inl (List.mem_cons_of_mem _ h1))
                    (fun h2 => Or.inr (List.mem_cons_of_mem _ h2)))
              have h1 := ih (removeIncident uu ((uu, ww) :: rest)) (uu :: pc)
                ⟨st.best, st.timeline, st.ticks + 1, false⟩ hrel1 hb ht
              have hrel2 : ∀ e ∈ E,
                  e ∈ removeIncident ww ((uu, ww) :: rest) ∨
                    (e.1 ∈ ww :: pc ∨ e.2 ∈ ww :: pc) := by
                intro e he
                rcases hrel e he with h | h
                · by_cases hinc : e.1 = ww ∨ e.2 = ww
                  · rcases hinc with h1 | h2
                    · exact Or.inr (Or.inl (h1 ▸ List.mem_cons_self _ _))
                    · exact Or.inr (Or.inr (h2 ▸ List.mem_cons_self _ _))
                  · push_neg at hinc
                    exact Or.inl ((mem_removeIncident ww _ e).mpr
                      ⟨h, hinc.1, hinc.2⟩)
                · exact Or.inr (Or.elim h
                    (fun h1 => Or.inl (List.mem_cons_of_mem _ h1))
                    (fun h2 => Or.inr (List.mem_cons_of_mem _ h2)))
              exact ih _ _ _ hrel2 h1.1 h1.2
            · simp only [if_true]
              exact ⟨hb, ht⟩
      · simp only [hd, if_true]
        exact ⟨hb, ht⟩
    · simp only [if_true]
      exact ⟨hb, ht⟩

theorem bnbGo_timeline_inv (budget : Option Nat) (fuel : Nat) :
    ∀ (u : List (Nat × Nat)) (pc : List Nat) (st : BnBState),
      st.timeline.Pairwise (fun a c => c.1.length < a.1.length) →
      (st.best = none → st.timeline = []) →
      (∀ b, st.best = some b → ∀ a ∈ st.timeline, b.length ≤ a.1.length) →
      (bnbGo budget fuel u pc st).timeline.Pairwise
          (fun a c => c.1.length < a.1.length) ∧
        ((bnbGo budget fuel u pc st).best = none →
          (bnbGo budget fuel u pc st).timeline = []) ∧
        (∀ b, (bnbGo budget fuel u pc st).best = some b →
          ∀ a ∈ (bnbGo budget fuel u pc st).timeline, b.length ≤ a.1.length) := by
  induction fuel with
  | zero => intro u pc st hp hn hs; exact ⟨hp, hn, hs⟩
  | succ n ih =>
    intro u pc st hp hn hs
    simp only [bnbGo]
    cases hcut : st.cutoff
    · cases hd : deadlineHit budget st.ticks
      · simp only [Bool.false_eq_true, if_false]
        cases u with
        | nil =>
          cases himp : improves pc st.best
          · simp only [Bool.false_eq_true, if_false]
            exact ⟨hp, hn, hs⟩
          · simp only [if_true]
            cases hbst : st.best with
            | none =>
              have htl : st.timeline = [] := hn hbst
              refine ⟨?_, ?_, ?_⟩
              · rw [htl]
                simp
              · intro h
                exact absurd h (by simp)
              · intro b hbeq a ha
                have hb : pc = b := by simpa using hbeq
                rw [htl] at ha
                have : a = (pc, st.ticks) := by simpa using ha
                rw [this, ← hb]
            | some b0 =>
              have hlt : pc.length < b0.length := by
                rw [hbst] at himp
                simpa [improves] using himp
              refine ⟨?_, ?_, ?_⟩
              · rw [List.pairwise_append]
                refine ⟨hp, by simp, ?_⟩
                intro a ha c hc
                have hc' : c = (pc, st.ticks) := by simpa using hc
                rw [hc']
                exact lt_of_lt_of_le hlt (hs b0 hbst a ha)
              · intro h
                exact absurd h (by simp)
              · intro b hbeq a ha
                have hb : pc = b := by simpa using hbeq
                rcases List.mem_append.mp ha with h | h
                · exact hb ▸ le_of_lt (lt_of_lt_of_le hlt (hs b0 hbst a h))
                · have : a = (pc, st.ticks) := by simpa using h
                  rw [this, ← hb]
        | cons e rest =>
          cases e with
          | mk uu ww =>
            cases hpr : boundPrunes pc st.best
            · simp only [Bool.false_eq_true, if_false]
              have h1 := ih (removeIncident uu ((uu, ww) :: rest)) (uu :: pc)
                ⟨st.best, st.timeline, st.ticks + 1, false⟩ hp hn hs
              exact ih _ _ _ h1.1 h1.2.1 h1.2.2
            · simp only [if_true]
              exact ⟨hp, hn, hs⟩
      · simp only [hd, if_true]
        exact ⟨hp, hn, hs⟩
    · simp only [if_true]
      exact ⟨hp, hn, hs⟩

theorem improves_false_elim (pc : List Nat) (o : Option (List Nat))
    (h : improves pc o = false) :
    ∃ b, o = some b ∧ b.length ≤ pc.length := by
  cases o with
  | none => exact absurd h (by simp [improves])
  | some b =>
    refine ⟨b, rfl, ?_⟩
    have := (Bool.not_eq_true _).mpr h
    simp only [improves, decide_eq_true_eq] at this
    omega

theorem boundPrunes_true_elim (pc : List Nat) (o : Option (List Nat))
    (h : boundPrunes pc o = true) :
    ∃ b, o = some b ∧ b.length ≤ pc.length + 1 := by
  cases o with
  | none => exact absurd h (by simp [boundPrunes])
  | some b =>
    refine ⟨b, rfl, ?_⟩
    simpa [boundPrunes] using h

theorem erase_covers (X : List Nat) (v : Nat) (l : List (Nat × Nat))
    (hX : coversEdges X l) :
    coversEdges (X.erase v) (removeIncident v l) := by
  intro e he
  obtain ⟨hel, h1, h2⟩ := (mem_removeIncident v l e).mp he
  rcases hX e hel with h | h
  · exact Or.inl ((List.mem_erase_of_ne h1).mpr h)
  · exact Or.inr ((List.mem_erase_of_ne h2).mpr h)

theorem bnbGo_complete (budget : Option Nat) (fuel : Nat) :
    ∀ (u : List (Nat × Nat)) (pc : List Nat) (st : BnBState) (X : List Nat),
      u.length < fuel →
      (bnbGo budget fuel u pc st).cutoff = false →
      coversEdges X u →
      bestLe (bnbGo budget fuel u pc st).best (pc.length + X.length) := by
  induction fuel with
  | zero => intro u pc st X h; omega
  | succ n ih =>
    intro u pc st X hfuel hcf hX
    have hcut : st.cutoff = false := bnbGo_cutoff_mono _ _ _ _ _ hcf
    simp only [bnbGo, hcut, Bool.false_eq_true, if_false] at hcf ⊢
    cases hd : deadlineHit budget st.ticks
    · simp only [hd, Bool.false_eq_true, if_false] at hcf ⊢
      cases u with
      | nil =>
        cases himp : improves pc st.best
        · simp only [himp, Bool.false_eq_true, if_false]
          obtain ⟨b, hb, hlen⟩ := improves_false_elim pc st.best himp
          exact ⟨b, hb, le_trans hlen (Nat.le_add_right _ _)⟩
        · simp only [himp, if_true]
          exact ⟨pc, rfl, Nat.le_add_right _ _⟩
      | cons e rest =>
        cases e with
        | mk uu ww =>
          have hX1 : uu ∈ X ∨ ww ∈ X := hX (uu, ww) (List.mem_cons_self _ _)
          have hXpos : 1 ≤ X.length := by
            rcases hX1 with h | h <;>
              exact List.length_pos.mpr (List.ne_nil_of_mem h)
          cases hpr : boundPrunes pc st.best
          · simp only [hpr, Bool.false_eq_true, if_false] at hcf ⊢
            have hfu : (removeIncident uu ((uu, ww) :: rest)).length < n := by
              have := removeIncident_length_le uu rest
              rw [removeIncident_cons_left]
              simp only [List.length_cons] at hfuel
              omega
            have hfw : (removeIncident ww ((uu, ww) :: rest)).length < n := by
              have := removeIncident_length_le ww rest
              rw [removeIncident_cons_right]
              simp only [List.length_cons] at hfuel
              omega
            by_cases hu : uu ∈ X
            · have hst1cf : (bnbGo budget n
                  (removeIncident uu ((uu, ww) :: rest)) (uu :: pc)
                  ⟨st.best, st.timeline, st.ticks + 1, false⟩).cutoff = false :=
                bnbGo_cutoff_mono _ _ _ _ _ hcf
              have h1 := ih (removeIncident uu ((uu, ww) :: rest)) (uu :: pc)
                ⟨st.best, st.timeline, st.ticks + 1, false⟩ (X.erase uu)
                hfu hst1cf (erase_covers X uu _ hX)
              have hlen : (uu :: pc).length + (X.erase uu).length
                  = pc.length + X.length := by
                rw [List.length_cons, List.length_erase_of_mem hu]
                omega
              rw [hlen] at h1
              exact bnbGo_bestLe_mono _ _ _ _ _ _ h1
            · have hw : ww ∈ X := hX1.resolve_left hu
              have h2 := ih (removeIncident ww ((uu, ww) :: rest)) (ww :: pc)
                (bnbGo budget n (removeIncident uu ((uu, ww) :: rest))
                  (uu :: pc) ⟨st.best, st.timeline, st.ticks + 1, false⟩)
                (X.erase ww) hfw hcf (erase_covers X ww _ hX)
              have hlen : (ww :: pc).length + (X.erase ww).length
                  = pc.length + X.length := by
                rw [List.length_cons, List.length_erase_of_mem hw]
                omega
              rw [hlen] at h2
              exact h2
          · simp only [hpr, if_true]
            obtain ⟨b, hb, hlen⟩ := boundPrunes_true_elim pc st.best hpr
            exact ⟨b, hb, by omega⟩
    · simp only [hd, if_true] at hcf
      exact absurd hcf (by simp)

theorem deadlineHit_none (t : Nat) : deadlineHit none t = false := rfl

theorem bnbGo_none_ticks_lt (fuel : Nat) (u : List (Nat × Nat))
    (pc : List Nat) (st : BnBState) (hfuel : u.length < fuel)
    (hcut : st.cutoff = false) :
    st.ticks < (bnbGo none fuel u pc st).ticks := by
  cases fuel with
  | zero => omega
  | succ n =>
    simp only [bnbGo, hcut, Bool.false_eq_true, if_false, deadlineHit]
    cases u with
    | nil =>
      cases himp : improves pc st.best <;> simp [himp, Nat.lt_succ_self]
    | cons e rest =>
      cases e with
      | mk uu ww =>
        cases hpr : boundPrunes pc st.best
        · simp only [Bool.false_eq_true, if_false]
          refine lt_of_lt_of_le ?_ (bnbGo_ticks_le none n _ _ _)
          refine lt_of_lt_of_le (Nat.lt_succ_self st.ticks) ?_
          exact bnbGo_ticks_le none n (removeIncident uu ((uu, ww) :: rest))
            (uu :: pc) ⟨st.best, st.timeline, st.ticks + 1, false⟩
        · simp [hpr, Nat.lt_succ_self]

theorem bnbGo_some_cutoff_false (fuel : Nat) :
    ∀ (k : Nat) (u : List (Nat × Nat)) (pc : List Nat) (st : BnBState),
      u.length < fuel →
      (bnbGo (some k) fuel u pc st).cutoff = false →
      bnbGo (some k) fuel u pc st = bnbGo none fuel u pc st ∧
        (bnbGo (some k) fuel u pc st).ticks ≤ k := by
  induction fuel with
  | zero => intro k u pc st h; omega
  | succ n ih =>
    intro k u pc st hfuel hcf
    have hcut : st.cutoff = false := bnbGo_cutoff_mono _ _ _ _ _ hcf
    simp only [bnbGo, hcut, Bool.false_eq_true, if_false] at hcf ⊢
    cases hd : deadlineHit (some k) st.ticks
    · have hlt : st.ticks < k := by
        have h := hd
        simp only [deadlineHit, decide_eq_false_iff_not] at h
        omega
      simp only [hd, Bool.false_eq_true, if_false, deadlineHit_none]
        at hcf ⊢
      cases u with
      | nil =>
        cases himp : improves pc st.best <;>
          simp [himp, Nat.succ_le_of_lt hlt]
      | cons e rest =>
        cases e with
        | mk uu ww =>
          simp only [List.length_cons] at hfuel
          have hfu : (removeIncident uu ((uu, ww) :: rest)).length < n := by
            have := removeIncident_length_le uu rest
            rw [removeIncident_cons_left]
            omega
          have hfw : (removeIncident ww ((uu, ww) :: rest)).length < n := by
            have := removeIncident_length_le ww rest
            rw [removeIncident_cons_right]
            omega
          cases hpr : boundPrunes pc st.best
          · simp only [hpr, Bool.false_eq_true, if_false] at hcf ⊢
            have hst1cf : (bnbGo (some k) n
                (removeIncident uu ((uu, ww) :: rest)) (uu :: pc)
                ⟨st.best, st.timeline, st.ticks + 1, false⟩).cutoff = false :=
              bnbGo_cutoff_mono _ _ _ _ _ hcf
            obtain ⟨heq1, _⟩ := ih k (removeIncident uu ((uu, ww) :: rest))
              (uu :: pc) ⟨st.best, st.timeline, st.ticks + 1, false⟩ hfu hst1cf
            rw [heq1] at hcf ⊢
            obtain ⟨heq2, hle2⟩ := ih k (removeIncident ww ((uu, ww) :: rest))
              (ww :: pc) (bnbGo none n (removeIncident uu ((uu, ww) :: rest))
                (uu :: pc) ⟨st.best, st.timeline, st.ticks + 1, false⟩) hfw hcf
            exact ⟨heq2, hle2⟩
          · simp [hpr, Nat.succ_le_of_lt hlt]
    · simp only [hd, if_true] at hcf
      exact absurd hcf (by simp)

theorem bnbGo_some_of_ticks_le (fuel : Nat) :
    ∀ (k : Nat) (u : List (Nat × Nat)) (pc : List Nat) (st : BnBState),
      u.length < fuel → st.cutoff = false →
      (bnbGo none fuel u pc st).ticks ≤ k →
      bnbGo (some k) fuel u pc st = bnbGo none fuel u pc st := by
  induction fuel with
  | zero => intro k u pc st h; omega
  | succ n ih =>
    intro k u pc st hfuel hcut hticks
    have hlt : st.ticks < k :=
      lt_of_lt_of_le (bnbGo_none_ticks_lt (n + 1) u pc st hfuel hcut) hticks
    have hd : deadlineHit (some k) st.ticks = false := by
      simp [deadlineHit]
      omega
    simp only [bnbGo, hcut, Bool.false_eq_true, if_false, hd, deadlineHit_none]
      at hticks ⊢
    cases u with
    | nil => rfl
    | cons e rest =>
      cases e with
      | mk uu ww =>
        simp only [List.length_cons] at hfuel
        have hfu : (removeIncident uu ((uu, ww) :: rest)).length < n := by
          have := removeIncident_length_le uu rest
          rw [removeIncident_cons_left]
          omega
        have hfw : (removeIncident ww ((uu, ww) :: rest)).length < n := by
          have := removeIncident_length_le ww rest
          rw [removeIncident_cons_right]
          omega
        cases hpr : boundPrunes pc st.best
        · simp only [hpr, Bool.false_eq_true, if_false] at hticks ⊢
          have hs1cut : (⟨st.best, st.timeline, st.ticks + 1, false⟩ :
              BnBState).cutoff = false := rfl
          have hticks1 : (bnbGo none n (removeIncident uu ((uu, ww) :: rest))
              (uu :: pc) ⟨st.best, st.timeline, st.ticks + 1, false⟩).ticks
              ≤ k :=
            le_trans (bnbGo_ticks_le none n _ _ _) hticks
          have heq1 := ih k (removeIncident uu ((uu, ww) :: rest)) (uu :: pc)
            ⟨st.best, st.timeline, st.ticks + 1, false⟩ hfu hs1cut hticks1
          rw [heq1]
          have hs2cut : (bnbGo none n (removeIncident uu ((uu, ww) :: rest))
              (uu :: pc) ⟨st.best, st.timeline, st.ticks + 1, false⟩).cutoff
              = false :=
            bnbGo_none_cutoff n _ _ _ rfl
          exact ih k (removeIncident ww ((uu, ww) :: rest)) (ww :: pc) _
            hfw hs2cut hticks
        · rfl

/-- C3: the returned `cutoffReached` flag is false exactly when the full
(deadline-free) search fits within the budget of node expansions — i.e. the
search exhausted the branch space before the deadline elapsed — and
whenever it is false the recorded cover is a minimum vertex cover of the
subgraph. -/
theorem bnb_cutoff_iff_and_optimal (es : List (Nat × Nat)) (budget : Nat)
    (probe : Option Nat) (C : List Nat) :
    ((bnbSolve es budget probe).cutoffReached = false ↔
      (fullSearch es).ticks ≤ budget) ∧
    ((bnbSolve es budget probe).cutoffReached = false →
      coversEdges (bnbSolve es budget probe).cover es ∧
      (coversEdges C es →
        (bnbSolve es budget probe).cover.length ≤ C.length)) := by
  have hfuel : es.length < es.length + 1 := Nat.lt_succ_self _
  constructor
  · constructor
    · intro hcf
      have hcf' : (bnbGo (some budget) (es.length + 1) es []
          initState).cutoff = false := hcf
      have h := bnbGo_some_cutoff_false (es.length + 1) budget es []
        initState hfuel hcf'
      show (bnbGo none (es.length + 1) es [] initState).ticks ≤ budget
      rw [← h.1]
      exact h.2
    · intro hle
      have hle' : (bnbGo none (es.length + 1) es [] initState).ticks
          ≤ budget := hle
      have heq := bnbGo_some_of_ticks_le (es.length + 1) budget es []
        initState hfuel rfl hle'
      show (bnbGo (some budget) (es.length + 1) es [] initState).cutoff
          = false
      rw [heq]
      exact bnbGo_none_cutoff _ _ _ _ rfl
  · intro hcf
    have hcf' : (bnbGo (some budget) (es.length + 1) es []
        initState).cutoff = false := hcf
    have hXcov : coversEdges (es.map Prod.fst) es := fun e he =>
      Or.inl (List.mem_map_of_mem Prod.fst he)
    obtain ⟨b, hb, _⟩ := bnbGo_complete (some budget) (es.length + 1) es []
      initState (es.map Prod.fst) hfuel hcf' hXcov
    have hsound := bnbGo_sound es (some budget) (es.length + 1) es []
      initState (fun e he => Or.inl he)
      (by intro b' h'; exact absurd h' (by simp [initState]))
      (by intro en h'; exact absurd h' (by simp [initState]))
    have hcover : coversEdges b es := hsound.1 b hb
    have hcovD : (bnbSolve es budget probe).cover = b := by
      show ((bnbGo (some budget) (es.length + 1) es []
        initState).best).getD [] = b
      rw [hb]
      rfl
    refine ⟨?_, ?_⟩
    · rw [hcovD]
      exact hcover
    · intro hC
      obtain ⟨b', hb', hlen'⟩ := bnbGo_complete (some budget)
        (es.length + 1) es [] initState C hfuel hcf' hC
      rw [hb] at hb'
      injection hb' with hbb
      rw [← hbb] at hlen'
      rw [hcovD]
      simpa using hlen'

/-- Witness for C3 at the single-edge graph `{(1,2)}` with budget `10` and
the cover `[1]`: the search finishes (flag false) and its cover is opt. -/
theorem bnb_cutoff_iff_and_optimal_witness :
    ((bnbSolve [(1, 2)] 10 none).cutoffReached = false ↔
      (fullSearch [(1, 2)]).ticks ≤ 10) ∧
    ((bnbSolve [(1, 2)] 10 none).cutoffReached = false →
      coversEdges (bnbSolve [(1, 2)] 10 none).cover [(1, 2)] ∧
      (coversEdges [1] [(1, 2)] →
        (bnbSolve [(1, 2)] 10 none).cover.length ≤ ([1] : List Nat).length)) :=
  bnb_cutoff_iff_and_optimal [(1, 2)] 10 none [1]

/-- C4: the timeline returned by a B&B run has strictly decreasing cover
sizes in recorded order, each entry is a complete cover of the subgraph,
and the search only ever appends to the timeline (the incoming timeline is
a prefix of the outgoing one at every step), so insertion order is
chronological. -/
theorem bnb_timeline_monotone (es : List (Nat × Nat)) (budget : Nat)
    (probe : Option Nat) (b : Option Nat) (fuel : Nat) (u : List (Nat × Nat))
    (pc : List Nat) (st : BnBState) (en : List Nat × Nat) :
    (bnbSolve es budget probe).timeline.Pairwise
        (fun a c => c.1.length < a.1.length) ∧
      (en ∈ (bnbSolve es budget probe).timeline → coversEdges en.1 es) ∧
      st.timeline <+: (bnbGo b fuel u pc st).timeline := by
  refine ⟨?_, ?_, bnbGo_timeline_extend b fuel u pc st⟩
  · have h := bnbGo_timeline_inv (some budget) (es.length + 1) es []
      initState List.Pairwise.nil (fun _ => rfl)
      (by intro b' h'; exact absurd h' (by simp [initState]))
    exact h.1
  · intro hen
    have hsound := bnbGo_sound es (some budget) (es.length + 1) es []
      initState (fun e he => Or.inl he)
      (by intro b' h'; exact absurd h' (by simp [initState]))
      (by intro en' h'; exact absurd h' (by simp [initState]))
    exact hsound.2 en hen

/-- Witness for C4 at the single-edge graph with its one timeline entry. -/
theorem bnb_timeline_monotone_witness :
    (bnbSolve [(1, 2)] 10 none).timeline.Pairwise
        (fun a c => c.1.length < a.1.length) ∧
      (([1], 1) ∈ (bnbSolve [(1, 2)] 10 none).timeline →
        coversEdges ([1], 1).1 [(1, 2)]) ∧
      initState.timeline <+: (bnbGo none 2 [(1, 2)] [] initState).timeline :=
  bnb_timeline_monotone [(1, 2)] 10 none none 2 [(1, 2)] [] initState ([1], 1)

/-- C5: a memory-probe failure (`none` reading) never changes a solver's
cover result and never propagates: the memory field becomes the explicit
`unavailable` sentinel while cover, timeline and cutoff flag are exactly
those of any other run. -/
theorem memory_probe_failure_is_sentinel (t : RTree) (es : List (Nat × Nat))
    (budget : Nat) (p : Option Nat) :
    (dpSolveFull t none).memory = MemReading.unavailable ∧
    (dpSolveFull t none).cover = (dpSolveFull t p).cover ∧
    (bnbSolve es budget none).memory = MemReading.unavailable ∧
    (bnbSolve es budget none).cover = (bnbSolve es budget p).cover ∧
    (bnbSolve es budget none).timeline = (bnbSolve es budget p).timeline ∧
    (bnbSolve es budget none).cutoffReached
      = (bnbSolve es budget p).cutoffReached :=
  ⟨rfl, rfl, rfl, rfl, rfl, rfl⟩

/-- C7: both solvers are deterministic in the returned cover size — two
runs on the same input (even with different memory-probe environments,
the only run-to-run variation in the model) return the same cover and
hence the same size. -/
theorem solvers_deterministic (t : RTree) (p1 p2 : Option Nat)
    (es : List (Nat × Nat)) (budget : Nat) :
    (dpSolveFull t p1).cover.length = (dpSolveFull t p2).cover.length ∧
    (bnbSolve es budget p1).cover.length
      = (bnbSolve es budget p2).cover.length :=
  ⟨rfl, rfl⟩

/-- driver.py lines 57-61: the `subgraph` dict mapping dataset size to the
prefix length; any other key raises `KeyError`, modelled as `none`. -/
def subgraphSize (N : Nat) : Option Nat :=
  if N = 10 ^ 4 then some 100
  else if N = 10 ^ 5 then some 300
  else if N = 10 ^ 6 then some 900
  else none

/-- driver.py line 63: `nodes = [i for i in range(1, subgraph[N] + 1)]` —
the vertex-id prefix `1..k`. -/
def prefixNodes (k : Nat) : List Nat :=
  (List.range k).map (fun i => i + 1)

/-- driver.py line 64: `subtree = G.subgraph(nodes)` — the induced
subgraph: exactly the edges with both endpoints among `nodes`. -/
def inducedSubgraph (es : List (Nat × Nat)) (nodes : List Nat) :
    List (Nat × Nat) :=
  es.filter (fun e => decide (e.1 ∈ nodes) && decide (e.2 ∈ nodes))

/-- driver.py lines 49-76 `vertex_cover_bnb` (solver call part): look up
the prefix length for the dataset size and run the B&B solver on the
induced subgraph over the prefix `1..k` only. -/
def vertex_cover_bnb (es : List (Nat × Nat)) (N : Nat) (cutoff_time : Nat)
    (probe : Option Nat) : Option BnBResult :=
  match subgraphSize N with
  | some k => some (bnbSolve (inducedSubgraph es (prefixNodes k))
      cutoff_time probe)
  | none => none

/-- C2: for the input sizes `10^4`, `10^5`, `10^6` the B&B wrapper runs the
solver exactly on the induced subgraph over the vertex-id prefix `1..k`
with `k = 100`, `300`, `900` respectively; `prefixNodes k` is precisely
`{v | 1 ≤ v ≤ k}` and the induced subgraph keeps precisely the edges with
both endpoints in the prefix. -/
theorem bnb_wrapper_prefix_subgraph (es : List (Nat × Nat)) (c : Nat)
    (p : Option Nat) (v k : Nat) (e : Nat × Nat) :
    vertex_cover_bnb es (10 ^ 4) c p
        = some (bnbSolve (inducedSubgraph es (prefixNodes 100)) c p) ∧
      vertex_cover_bnb es (10 ^ 5) c p
        = some (bnbSolve (inducedSubgraph es (prefixNodes 300)) c p) ∧
      vertex_cover_bnb es (10 ^ 6) c p
        = some (bnbSolve (inducedSubgraph es (prefixNodes 900)) c p) ∧
      (v ∈ prefixNodes k ↔ 1 ≤ v ∧ v ≤ k) ∧
      (e ∈ inducedSubgraph es (prefixNodes k) ↔
        e ∈ es ∧ e.1 ∈ prefixNodes k ∧ e.2 ∈ prefixNodes k) := by
  refine ⟨?_, ?_, ?_, ?_, ?_⟩
  · simp [vertex_cover_bnb, subgraphSize]
  · rw [vertex_cover_bnb, subgraphSize]
    norm_num
  · rw [vertex_cover_bnb, subgraphSize]
    norm_num
  · simp only [prefixNodes, List.mem_map, List.mem_range]
    constructor
    · rintro ⟨i, hi, rfl⟩
      omega
    · intro h
      exact ⟨v - 1, by omega, by omega⟩
  · simp [inducedSubgraph, List.mem_filter, and_assoc]

/-- CPython semantics of driver.py lines 80-82:
`for element in vc: if element[1]==0: vc.remove(element)`.
The iterator keeps an index `i`; each step reads `vc[i]` from the current
list, possibly calls `vc.remove` (delete the first element equal to it),
and then advances `i` regardless, so the element sliding into slot `i` is
skipped.  The fuel is the initial length, an upper bound on the number of
iterations since `i` grows by one per step and the list never grows. -/
def pyFilterGo : Nat → Nat → List (Nat × Nat) → List (Nat × Nat)
  | 0, _, vc => vc
  | fuel + 1, i, vc =>
    if h : i < vc.length then
      if (vc.get ⟨i, h⟩).2 = 0 then
        pyFilterGo fuel (i + 1) (vc.erase (vc.get ⟨i, h⟩))
      else pyFilterGo fuel (i + 1) vc
    else vc

/-- The driver's post-solve filtering loop over the solver result list. -/
def removeZerosLoop (vc : List (Nat × Nat)) : List (Nat × Nat) :=
  pyFilterGo vc.length 0 vc

/-- driver.py line 87: the returned cover size is `len(vc)` after the
filtering loop. -/
def bnb_post_count (vc : List (Nat × Nat)) : Nat :=
  (removeZerosLoop vc).length

/-- C9: the remove-while-iterating loop does not remove all zero-flagged
entries: on the result list `[(1,0), (2,0)]` — two consecutive entries
with second component `0` — the entry `(2,0)` survives the loop and is
counted in the returned `len(vc)`. -/
theorem bnb_zero_filter_leaves_zero_entry :
    removeZerosLoop [(1, 0), (2, 0)] = [(2, 0)] ∧
      (2, 0) ∈ removeZerosLoop [(1, 0), (2, 0)] ∧
      ((2, 0) : Nat × Nat).2 = 0 ∧
      bnb_post_count [(1, 0), (2, 0)] = 1 := by
  refine ⟨?_, ?_, rfl, ?_⟩ <;> decide

/-- driver.py line 175: `times[-1][-1]` — the report step reads the last
timeline entry's elapsed time.  Python raises `IndexError` on an empty
list; the failure is modelled as `none`. -/
def reportLastSolutionTime (times : List (List Nat × Nat)) : Option Nat :=
  match times.getLast? with
  | some en => some en.2
  | none => none

/-- C10: the report step is only defined for a non-empty timeline: on any
run returning an empty timeline it fails with an index error (`none`)
instead of reporting the degraded result — and such runs exist, e.g. the
cutoff-0 run on `{(1,2)}`, which the contract permits
(`cutoffReached = true`). -/
theorem report_step_fails_on_empty_timeline
    (times : List (List Nat × Nat)) :
    (times = [] → reportLastSolutionTime times = none) ∧
      (bnbSolve [(1, 2)] 0 none).timeline = [] ∧
      (bnbSolve [(1, 2)] 0 none).cutoffReached = true := by
  refine ⟨fun h => ?_, by decide, by decide⟩
  rw [h]
  rfl

/-- Witness for C10 at the empty timeline itself. -/
theorem report_step_fails_on_empty_timeline_witness :
    (([] : List (List Nat × Nat)) = [] →
        reportLastSolutionTime [] = none) ∧
      (bnbSolve [(1, 2)] 0 none).timeline = [] ∧
      (bnbSolve [(1, 2)] 0 none).cutoffReached = true :=
  report_step_fails_on_empty_timeline []

/-- Witness for C2 at a two-edge graph: the edge `(1,2)` lies in the
prefix `1..100`, the edge `(200,201)` does not. -/
theorem bnb_wrapper_prefix_subgraph_witness :
    vertex_cover_bnb [(1, 2), (200, 201)] (10 ^ 4) 5 none
        = some (bnbSolve (inducedSubgraph [(1, 2), (200, 201)]
          (prefixNodes 100)) 5 none) ∧
      vertex_cover_bnb [(1, 2), (200, 201)] (10 ^ 5) 5 none
        = some (bnbSolve (inducedSubgraph [(1, 2), (200, 201)]
          (prefixNodes 300)) 5 none) ∧
      vertex_cover_bnb [(1, 2), (200, 201)] (10 ^ 6) 5 none
        = some (bnbSolve (inducedSubgraph [(1, 2), (200, 201)]
          (prefixNodes 900)) 5 none) ∧
      ((2 : Nat) ∈ prefixNodes 100 ↔ 1 ≤ 2 ∧ 2 ≤ 100) ∧
      (((1, 2) : Nat × Nat) ∈ inducedSubgraph [(1, 2), (200, 201)]
          (prefixNodes 100) ↔
        ((1, 2) : Nat × Nat) ∈ [(1, 2), (200, 201)] ∧
          ((1, 2) : Nat × Nat).1 ∈ prefixNodes 100 ∧
          ((1, 2) : Nat × Nat).2 ∈ prefixNodes 100) :=
  bnb_wrapper_prefix_subgraph [(1, 2), (200, 201)] 5 none 2 100 (1, 2)
